import Mathlib

/-!
Verification of the quote-acquisition and opportunity-detection engine of the
SolanaArbitrage backend (`flask_backend.py`), via a shallow embedding.

Times and prices are modelled as rationals.  The Python built-in `hash` is
modelled as an abstract function `String → ℤ`, with the Python `%` operator
(result sign following the positive divisor) modelled by `Int.emod`.
Stateful code is modelled by explicit state passing.
-/

namespace SolanaArbitrage

/-! ### Rate limiter (`rate_limit_check`, lines 82-98) -/

/-- The two upstream sources tracked by `api_call_times`. -/
inductive ApiName
  | jupiter
  | coingecko
deriving DecidableEq

/-- Source constant `MAX_CALLS_PER_MINUTE = {'jupiter': 10, 'coingecko': 15}`. -/
def MAX_CALLS_PER_MINUTE : ApiName → ℕ
  | .jupiter => 10
  | .coingecko => 15

/-- Embedding of `rate_limit_check`: prune timestamps older than 60 time
units, deny if the remaining count already reaches the budget, otherwise
record the current timestamp and admit.  The returned list is the new value
of `api_call_times[api_name]`. -/
def rate_limit_check (budget : ℕ) (now : ℚ) (ts : List ℚ) : Bool × List ℚ :=
  let pruned := ts.filter fun t => decide (now - t < 60)
  if budget ≤ pruned.length then (false, pruned)
  else (true, pruned ++ [now])

/-- Run a sequence of `rate_limit_check` calls (with the given call
timestamps) against a starting timestamp list.  Returns the final stored
timestamp list together with the list of admitted call timestamps. -/
def rlRun (budget : ℕ) (st : List ℚ) : List ℚ → List ℚ × List ℚ
  | [] => (st, [])
  | c :: cs =>
    let step := rate_limit_check budget c st
    let rest := rlRun budget step.2 cs
    (rest.1, (if step.1 then [c] else []) ++ rest.2)

/-- Membership of a timestamp in the trailing 60-unit window ending at `T`. -/
def inWindow (T t : ℚ) : Bool := decide (T - t < 60 ∧ t ≤ T)

lemma rate_limit_check_snd_length {budget : ℕ} {now : ℚ} {ts : List ℚ}
    (h : ts.length ≤ budget) : ((rate_limit_check budget now ts).2).length ≤ budget := by
  unfold rate_limit_check
  set pruned := ts.filter fun t => decide (now - t < 60) with hp
  have hsub : pruned.length ≤ ts.length := (List.filter_sublist ts).length_le
  by_cases hb : budget ≤ pruned.length
  · simp only [hb, if_pos]
    omega
  · simp only [hb, if_neg, not_false_iff]
    simp only [List.length_append, List.length_cons, List.length_nil]
    omega

lemma rlRun_fst_length (budget : ℕ) (calls : List ℚ) :
    ∀ st : List ℚ, st.length ≤ budget → ((rlRun budget st calls).1).length ≤ budget := by
  induction calls with
  | nil => intro st h; simpa [rlRun] using h
  | cons c cs ih =>
    intro st h
    simp only [rlRun]
    exact ih _ (rate_limit_check_snd_length h)

lemma rlRun_snd_sublist (budget : ℕ) (calls : List ℚ) :
    ∀ st : List ℚ, List.Sublist (rlRun budget st calls).2 calls := by
  induction calls with
  | nil => intro st; simp [rlRun]
  | cons c cs ih =>
    intro st
    simp only [rlRun]
    by_cases hb : (rate_limit_check budget c st).1
    · simpa [hb] using (ih (rate_limit_check budget c st).2).cons₂ c
    · simpa [hb] using (ih (rate_limit_check budget c st).2).cons c

/-- Key inductive invariant for the sliding-window bound: running the limiter
from a stored list whose entries all precede the (monotone) call sequence,
either the admitted calls inside the window of `T` plus the stored entries
inside that window stay within the budget, or no admitted call lies in the
window at all. -/
lemma rlRun_window_aux (budget : ℕ) (T : ℚ) (calls : List ℚ) :
    ∀ st : List ℚ, calls.Pairwise (· ≤ ·) →
      (∀ t ∈ st, ∀ c ∈ calls, t ≤ c) → st.length ≤ budget →
      ((rlRun budget st calls).2.countP (inWindow T) + st.countP (inWindow T) ≤ budget
        ∨ (rlRun budget st calls).2.countP (inWindow T) = 0) := by
  induction calls with
  | nil => intro st _ _ _; right; simp [rlRun]
  | cons c cs ih =>
    intro st hpw hmono hlen
    have hpw' : cs.Pairwise (· ≤ ·) := hpw.of_cons
    have hcle : ∀ c' ∈ cs, c ≤ c' := fun c' hc' => (List.pairwise_cons.mp hpw).1 c' hc'
    simp only [rlRun]
    set pruned := st.filter fun t => decide (c - t < 60) with hprdef
    have hprsub : List.Sublist pruned st := List.filter_sublist st
    have hprlen : pruned.length ≤ st.length := hprsub.length_le
    have hprmono : ∀ t ∈ pruned, ∀ c' ∈ cs, t ≤ c' :=
      fun t ht c' hc' => hmono t (hprsub.mem ht) c' (List.mem_cons_of_mem c hc')
    -- if some stored timestamp inside the window of T is pruned away at this
    -- call, then the current call (and hence every later call) lies past T
    have hdrop : (∃ t ∈ st, inWindow T t ∧ 60 ≤ c - t) → T < c := by
      rintro ⟨t, _, hw, hold⟩
      have hw' : T - t < 60 ∧ t ≤ T := of_decide_eq_true hw
      linarith [hw'.1, hw'.2]
    have hcntkeep : (∀ t ∈ st, inWindow T t → (c - t < 60)) →
        st.countP (inWindow T) = pruned.countP (inWindow T) := by
      intro hk
      rw [hprdef, List.countP_filter]
      refine List.countP_congr ?_
      intro t ht
      simp only [Bool.and_eq_true, decide_eq_true_eq]
      exact ⟨fun h' => ⟨h', hk t ht h'⟩, fun h' => h'.1⟩
    have hnone_of_past : T < c → (rlRun budget
        (rate_limit_check budget c st).2 cs).2.countP (inWindow T) = 0 := by
      intro hTc
      rw [List.countP_eq_zero]
      intro a ha
      have hacs : a ∈ cs := (rlRun_snd_sublist budget cs _).mem ha
      have hca : c ≤ a := hcle a hacs
      intro hwin
      have hw' : T - a < 60 ∧ a ≤ T := of_decide_eq_true hwin
      linarith [hw'.2]
    by_cases hb : budget ≤ pruned.length
    · -- call denied: the stored list becomes the pruned list
      have hstep1 : (rate_limit_check budget c st).1 = false := by
        simp [rate_limit_check, hb, ← hprdef]
      have hstep2 : (rate_limit_check budget c st).2 = pruned := by
        simp [rate_limit_check, hb, ← hprdef]
      rcases ih pruned hpw' hprmono (le_trans hprlen hlen) with hle | hzero
      · by_cases hk : ∀ t ∈ st, inWindow T t → (c - t < 60)
        · left
          rw [hstep1, hstep2]
          simp only [if_neg Bool.false_ne_true, List.nil_append]
          rw [hcntkeep hk]
          exact hle
        · right
          push_neg at hk
          have hTc : T < c := hdrop hk
          have := hnone_of_past hTc
          rw [hstep2] at this
          rw [hstep1, hstep2]
          simpa only [if_neg Bool.false_ne_true, List.nil_append] using this
      · right
        rw [hstep1, hstep2]
        simp only [if_neg Bool.false_ne_true, List.nil_append]
        exact hzero
    · -- call admitted: the stored list becomes pruned ++ [c]
      have hblt : pruned.length < budget := lt_of_not_ge hb
      have hstep1 : (rate_limit_check budget c st).1 = true := by
        simp [rate_limit_check, hb, ← hprdef]
      have hstep2 : (rate_limit_check budget c st).2 = pruned ++ [c] := by
        simp [rate_limit_check, hb, ← hprdef]
      have hmono' : ∀ t ∈ pruned ++ [c], ∀ c' ∈ cs, t ≤ c' := by
        intro t ht c' hc'
        rcases List.mem_append.mp ht with h1 | h2
        · exact hprmono t h1 c' hc'
        · rw [List.mem_singleton.mp h2]; exact hcle c' hc'
      have hlen' : (pruned ++ [c]).length ≤ budget := by
        simp only [List.length_append, List.length_cons, List.length_nil]
        omega
      rcases ih (pruned ++ [c]) hpw' hmono' hlen' with hle | hzero
      · -- IH gives the budget inequality for the extended stored list
        rw [List.countP_append, List.countP_cons, List.countP_nil] at hle
        by_cases hcw : inWindow T c
        · -- the admitted call is inside the window; then no windowed stored
          -- timestamp can have been pruned at this call
          have hcw' : T - c < 60 ∧ c ≤ T := of_decide_eq_true hcw
          have hk : ∀ t ∈ st, inWindow T t → (c - t < 60) := by
            intro t ht hw
            have hw' : T - t < 60 ∧ t ≤ T := of_decide_eq_true hw
            linarith [hw'.1, hcw'.2]
          left
          rw [hstep1, hstep2, if_pos rfl, List.singleton_append,
            List.countP_cons_of_pos _ _ hcw, hcntkeep hk]
          rw [if_pos hcw] at hle
          omega
        · by_cases hk : ∀ t ∈ st, inWindow T t → (c - t < 60)
          · left
            rw [hstep1, hstep2, if_pos rfl, List.singleton_append,
              List.countP_cons_of_neg _ _ (by simpa using hcw), hcntkeep hk]
            rw [if_neg (by simpa using hcw)] at hle
            omega
          · right
            push_neg at hk
            have hTc : T < c := hdrop hk
            rw [hstep1, if_pos rfl, List.singleton_append,
              List.countP_cons_of_neg _ _ (by simpa using hcw)]
            exact hnone_of_past hTc
      · by_cases hcw : inWindow T c
        · -- no later admitted call in the window: the current admission is
          -- the only one, and the pruned list leaves room for it
          left
          rw [hstep1, hstep2, if_pos rfl, List.singleton_append,
            List.countP_cons_of_pos _ _ hcw, hzero]
          have hcw' : T - c < 60 ∧ c ≤ T := of_decide_eq_true hcw
          have hk : ∀ t ∈ st, inWindow T t → (c - t < 60) := by
            intro t ht hw
            have hw' : T - t < 60 ∧ t ≤ T := of_decide_eq_true hw
            linarith [hw'.1, hcw'.2]
          have hcnt : st.countP (inWindow T) ≤ pruned.length := by
            rw [hcntkeep hk]
            exact List.countP_le_length _
          omega
        · right
          rw [hstep1, hstep2, if_pos rfl, List.singleton_append,
            List.countP_cons_of_neg _ _ (by simpa using hcw)]
          exact hzero

/-- C1: for every monotone sequence of `rate_limit_check` calls on one source
starting from an empty timestamp list, the number of admitted calls whose
timestamp lies in any trailing 60-time-unit window never exceeds that
source's configured per-minute budget (10 for jupiter, 15 for coingecko);
moreover a further call that is denied leaves the per-source timestamp list
unchanged (in particular it records no timestamp). -/
theorem rate_limit_window_bound_and_deny_unchanged (api : ApiName) (calls : List ℚ)
    (hmono : calls.Pairwise (· ≤ ·)) (T : ℚ) :
    (rlRun (MAX_CALLS_PER_MINUTE api) [] calls).2.countP (inWindow T)
        ≤ MAX_CALLS_PER_MINUTE api
    ∧ ∀ now : ℚ,
        (rate_limit_check (MAX_CALLS_PER_MINUTE api) now
            (rlRun (MAX_CALLS_PER_MINUTE api) [] calls).1).1 = false →
          (rate_limit_check (MAX_CALLS_PER_MINUTE api) now
              (rlRun (MAX_CALLS_PER_MINUTE api) [] calls).1).2 =
            (rlRun (MAX_CALLS_PER_MINUTE api) [] calls).1 := by
  constructor
  · rcases rlRun_window_aux (MAX_CALLS_PER_MINUTE api) T calls [] hmono
      (by simp) (by simp) with h | h
    · simpa using h
    · rw [h]; exact Nat.zero_le _
  · intro now hf
    have hlen : ((rlRun (MAX_CALLS_PER_MINUTE api) [] calls).1).length
        ≤ MAX_CALLS_PER_MINUTE api :=
      rlRun_fst_length (MAX_CALLS_PER_MINUTE api) calls [] (by simp)
    set stored := (rlRun (MAX_CALLS_PER_MINUTE api) [] calls).1 with hs
    by_cases hb : MAX_CALLS_PER_MINUTE api
        ≤ (stored.filter fun t => decide (now - t < 60)).length
    · have h2 : (rate_limit_check (MAX_CALLS_PER_MINUTE api) now stored).2
          = stored.filter fun t => decide (now - t < 60) := by
        simp [rate_limit_check, hb]
      rw [h2]
      exact (List.filter_sublist stored).eq_of_length_le (le_trans hlen hb)
    · exfalso
      have htrue : (rate_limit_check (MAX_CALLS_PER_MINUTE api) now stored).1 = true := by
        simp [rate_limit_check, hb]
      rw [hf] at htrue
      exact Bool.false_ne_true htrue

/-- Witness for C1 at a concrete monotone call sequence. -/
theorem rate_limit_window_bound_and_deny_unchanged_witness :
    ([0, 10, 70] : List ℚ).Pairwise (· ≤ ·)
    ∧ ((rlRun (MAX_CALLS_PER_MINUTE .jupiter) [] [0, 10, 70]).2.countP (inWindow 70)
          ≤ MAX_CALLS_PER_MINUTE .jupiter
        ∧ ∀ now : ℚ,
            (rate_limit_check (MAX_CALLS_PER_MINUTE .jupiter) now
                (rlRun (MAX_CALLS_PER_MINUTE .jupiter) [] [0, 10, 70]).1).1 = false →
              (rate_limit_check (MAX_CALLS_PER_MINUTE .jupiter) now
                  (rlRun (MAX_CALLS_PER_MINUTE .jupiter) [] [0, 10, 70]).1).2 =
                (rlRun (MAX_CALLS_PER_MINUTE .jupiter) [] [0, 10, 70]).1) :=
  ⟨by decide, rate_limit_window_bound_and_deny_unchanged .jupiter [0, 10, 70] (by decide) 70⟩

/-! ### Quotes, opportunities and the detection step
(`generate_arbitrage_opportunities`, lines 335-409) -/

/-- The fields of a quote dictionary that the detection step reads. -/
structure Quote where
  dex : String
  price : ℚ
  liquidity : ℚ
  slippage : ℚ
  source : String
deriving DecidableEq

/-- An opportunity record as built by `generate_arbitrage_opportunities`. -/
structure Opportunity where
  id : String
  pair : String
  buyDex : String
  sellDex : String
  buyPrice : ℚ
  sellPrice : ℚ
  spread : ℚ
  estimatedProfit : ℚ
  estimatedGas : ℚ
  netProfit : ℚ
  confidence : ℚ
  timestamp : ℤ
  route : List String
  dataSource : String
  buyLiquidity : ℚ
  sellLiquidity : ℚ
deriving DecidableEq

/-- Source expression `0.01 + (hash(f"{buy_dex}{sell_dex}") % 20) / 1000`. -/
def estimated_gas_of (h : String → ℤ) (buyDex sellDex : String) : ℚ :=
  1 / 100 + (((h (buyDex ++ sellDex)) % 20 : ℤ) : ℚ) / 1000

/-- One iteration of the inner double loop of
`generate_arbitrage_opportunities`: given a (buy, sell) pair of quotes,
produce the opportunity it emits, if any. -/
def mk_opportunity (h : String → ℤ) (nowMs : ℤ) (pair : String)
    (buy sell : Quote) : Option Opportunity :=
  let spread := (sell.price - buy.price) / buy.price * 100
  if 1 / 10 < spread then
    let estimated_profit := spread - buy.slippage * 100 - sell.slippage * 100
    let estimated_gas := estimated_gas_of h buy.dex sell.dex
    let net_profit := estimated_profit - estimated_gas
    if 0 < net_profit then
      let confidence := min
        ((buy.liquidity + sell.liquidity) / 20000 * 40
          + min (spread / 2) 1 * 30
          + (((100 : ℤ) - |h pair % 30| : ℤ) : ℚ) / 100 * 30) 100
      let data_source :=
        if buy.source = sell.source then buy.source
        else buy.source ++ "/" ++ sell.source
      some {
        id := pair.replace "/" "-" ++ "-" ++ buy.dex ++ "-" ++ sell.dex
          ++ "-" ++ toString nowMs,
        pair := pair,
        buyDex := buy.dex,
        sellDex := sell.dex,
        buyPrice := buy.price,
        sellPrice := sell.price,
        spread := spread,
        estimatedProfit := estimated_profit,
        estimatedGas := estimated_gas,
        netProfit := net_profit,
        confidence := confidence,
        timestamp := nowMs,
        route := ["Buy on " ++ buy.dex, "Sell on " ++ sell.dex],
        dataSource := data_source,
        buyLiquidity := buy.liquidity,
        sellLiquidity := sell.liquidity }
    else none
  else none

/-- The double loop over positionally distinct (buy, sell) quote pairs for a
single trading pair (lines 351-397). -/
def detect_pair_opportunities (h : String → ℤ) (nowMs : ℤ) (pair : String)
    (quotes : List Quote) : List Opportunity :=
  quotes.enum.flatMap fun bi =>
    quotes.enum.filterMap fun sj =>
      if bi.1 ≠ sj.1 then mk_opportunity h nowMs pair bi.2 sj.2 else none

/-- A cache entry of `jupiter_quotes`. -/
structure CachedQuotes where
  data : List Quote
  timestamp : ℚ

/-- Source constant `TRADING_PAIRS` (the keys; mint addresses are not needed
by the detection step). -/
def TRADING_PAIRS : List String :=
  ["SOL/USDC", "RAY/USDC", "ORCA/USDC", "BONK/USDC", "JUP/USDC"]

/-- One iteration of the price-history update loop (lines 404-409): append
the opportunity's spread to its pair's series and trim that series to the
most recent 50 entries. -/
def uph_step (acc : String → List ℚ) (opp : Opportunity) : String → List ℚ :=
  fun p =>
    if p = opp.pair then
      if 50 < (acc opp.pair ++ [opp.spread]).length then
        (acc opp.pair ++ [opp.spread]).drop ((acc opp.pair ++ [opp.spread]).length - 50)
      else acc opp.pair ++ [opp.spread]
    else acc p

/-- The price-history update loop at the end of
`generate_arbitrage_opportunities` (lines 403-409): for each retained
opportunity, append its spread to its pair's series, then trim the series to
the most recent 50 entries.  `price_history` is modelled as a total map with
default `[]` (the code inserts `[]` on first touch). -/
def update_price_history (opps : List Opportunity) (ph : String → List ℚ) :
    String → List ℚ :=
  opps.foldl uph_step ph

/-- Embedding of `generate_arbitrage_opportunities`: for each configured
pair, use the cached quote set unless it is absent or stale (older than 5
time units); detect opportunities; sort descending by net profit (Python's
stable sort with `reverse=True`); keep the top 10; then update the per-pair
price history.  Returns the new `current_opportunities` and `price_history`. -/
def generate_arbitrage_opportunities (h : String → ℤ) (now : ℚ) (nowMs : ℤ)
    (jupiter_quotes : String → Option CachedQuotes)
    (price_history : String → List ℚ) :
    List Opportunity × (String → List ℚ) :=
  let opportunities := TRADING_PAIRS.flatMap fun pair =>
    match jupiter_quotes pair with
    | none => []
    | some cached =>
      if 5 < now - cached.timestamp then []
      else detect_pair_opportunities h nowMs pair cached.data
  let sorted := opportunities.mergeSort fun a b => decide (b.netProfit ≤ a.netProfit)
  let current := sorted.take 10
  (current, update_price_history current price_history)

lemma netProfit_pos_of_mk {h : String → ℤ} {nowMs : ℤ} {pair : String}
    {b s : Quote} {o : Opportunity}
    (hmk : mk_opportunity h nowMs pair b s = some o) : 0 < o.netProfit := by
  simp only [mk_opportunity] at hmk
  split at hmk
  · split at hmk
    · rename_i hpos
      rw [Option.some.injEq] at hmk
      rw [← hmk]
      exact hpos
    · exact absurd hmk (by simp)
  · exact absurd hmk (by simp)

/-- C2: after every run of the opportunity-generation step, for any input
cache of quotes, the published opportunity list has length at most 10, is
sorted in descending order of `netProfit`, and every retained opportunity
has strictly positive `netProfit`. -/
theorem generate_top10_sorted_positive (h : String → ℤ) (now : ℚ) (nowMs : ℤ)
    (jq : String → Option CachedQuotes) (ph : String → List ℚ) :
    ((generate_arbitrage_opportunities h now nowMs jq ph).1).length ≤ 10
    ∧ ((generate_arbitrage_opportunities h now nowMs jq ph).1).Pairwise
        (fun a b => b.netProfit ≤ a.netProfit)
    ∧ ∀ o ∈ (generate_arbitrage_opportunities h now nowMs jq ph).1,
        0 < o.netProfit := by
  have hgen : (generate_arbitrage_opportunities h now nowMs jq ph).1
      = ((TRADING_PAIRS.flatMap fun pair =>
          match jq pair with
          | none => []
          | some cached =>
            if 5 < now - cached.timestamp then []
            else detect_pair_opportunities h nowMs pair cached.data).mergeSort
          fun a b => decide (b.netProfit ≤ a.netProfit)).take 10 := rfl
  refine ⟨?_, ?_, ?_⟩
  · rw [hgen]
    exact List.length_take_le _ _
  · rw [hgen]
    apply List.Pairwise.sublist (List.take_sublist _ _)
    refine List.Pairwise.imp ?_ (List.sorted_mergeSort ?_ ?_ _)
    · exact fun hab => of_decide_eq_true hab
    · intro a b c hab hbc
      simp only [decide_eq_true_eq] at *
      exact le_trans hbc hab
    · intro a b
      simp only [Bool.or_eq_true, decide_eq_true_eq]
      exact le_total _ _
  · intro o ho
    rw [hgen] at ho
    have h1 := List.mem_of_mem_take ho
    rw [List.mem_mergeSort, List.mem_flatMap] at h1
    obtain ⟨pair, _, hmem⟩ := h1
    cases hjq : jq pair with
    | none =>
      rw [hjq] at hmem
      simp at hmem
    | some cached =>
      rw [hjq] at hmem
      dsimp only at hmem
      by_cases hstale : 5 < now - cached.timestamp
      · rw [if_pos hstale] at hmem
        simp at hmem
      · rw [if_neg hstale] at hmem
        simp only [detect_pair_opportunities, List.mem_flatMap,
          List.mem_filterMap] at hmem
        obtain ⟨bi, _, sj, _, hmk⟩ := hmem
        by_cases hij : bi.1 ≠ sj.1
        · rw [if_pos hij] at hmk
          exact netProfit_pos_of_mk hmk
        · rw [if_neg hij] at hmk
          exact absurd hmk (by simp)

lemma mk_opportunity_fields {h : String → ℤ} {nowMs : ℤ} {pair : String}
    {b s : Quote} {o : Opportunity}
    (hmk : mk_opportunity h nowMs pair b s = some o) :
    o.buyDex = b.dex ∧ o.sellDex = s.dex
    ∧ o.spread = (s.price - b.price) / b.price * 100
    ∧ o.estimatedProfit = o.spread - b.slippage * 100 - s.slippage * 100
    ∧ o.netProfit = o.estimatedProfit - estimated_gas_of h b.dex s.dex := by
  simp only [mk_opportunity] at hmk
  split at hmk
  · split at hmk
    · rw [Option.some.injEq] at hmk
      rw [← hmk]
      exact ⟨rfl, rfl, rfl, rfl, rfl⟩
    · exact absurd hmk (by simp)
  · exact absurd hmk (by simp)

/-- C3: on the two-quote input with venue "A" at price 100 / slippage 0.001
and venue "B" at price 101 / slippage 0.002, the detection step emits exactly
one opportunity: buy on "A", sell on "B", spread 1, gross profit 0.7, and
net profit 0.7 minus the deterministic gas estimate for the ("A","B") venue
pair; in particular no opportunity buying on "B" and selling on "A" is
emitted (that spread is negative). -/
theorem detect_two_quote_example (h : String → ℤ) (nowMs : ℤ) (lA lB : ℚ) :
    ∃ o : Opportunity,
      detect_pair_opportunities h nowMs "SOL/USDC"
          [⟨"A", 100, lA, 1/1000, "jupiter"⟩, ⟨"B", 101, lB, 2/1000, "jupiter"⟩]
        = [o]
      ∧ o.buyDex = "A" ∧ o.sellDex = "B"
      ∧ o.spread = 1
      ∧ o.estimatedProfit = 7/10
      ∧ o.netProfit = 7/10 - estimated_gas_of h "A" "B" := by
  have hsp1 : (1:ℚ)/10 < ((101:ℚ) - 100) / 100 * 100 := by norm_num
  have hnet1 : (0:ℚ) < ((101:ℚ) - 100) / 100 * 100 - 1/1000 * 100 - 2/1000 * 100
      - estimated_gas_of h "A" "B" := by
    have h1 : (0:ℤ) ≤ h ("A" ++ "B") % 20 := Int.emod_nonneg _ (by norm_num)
    have h2 : h ("A" ++ "B") % 20 < 20 := Int.emod_lt_of_pos _ (by norm_num)
    have h1' : (0:ℚ) ≤ ((h ("A" ++ "B") % 20 : ℤ) : ℚ) := by exact_mod_cast h1
    have h2' : ((h ("A" ++ "B") % 20 : ℤ) : ℚ) < 20 := by exact_mod_cast h2
    unfold estimated_gas_of
    linarith
  have hmk1 : ∃ o, mk_opportunity h nowMs "SOL/USDC"
      ⟨"A", 100, lA, 1/1000, "jupiter"⟩ ⟨"B", 101, lB, 2/1000, "jupiter"⟩ = some o := by
    simp only [mk_opportunity]
    rw [if_pos hsp1, if_pos hnet1]
    exact ⟨_, rfl⟩
  have hmk2 : mk_opportunity h nowMs "SOL/USDC"
      ⟨"B", 101, lB, 2/1000, "jupiter"⟩ ⟨"A", 100, lA, 1/1000, "jupiter"⟩ = none := by
    simp only [mk_opportunity]
    rw [if_neg (by norm_num)]
  obtain ⟨o1, ho1⟩ := hmk1
  obtain ⟨hbuy, hsell, hspread, hprofit, hnet⟩ := mk_opportunity_fields ho1
  have hspread1 : o1.spread = 1 := by rw [hspread]; norm_num
  have hprofit7 : o1.estimatedProfit = 7/10 := by
    rw [hprofit, hspread1]
    norm_num
  refine ⟨o1, ?_, hbuy, hsell, hspread1, hprofit7, ?_⟩
  · simp only [detect_pair_opportunities, List.enum, List.enumFrom,
      List.flatMap_cons, List.flatMap_nil, List.filterMap_cons, List.filterMap_nil,
      ne_eq, reduceIte, ho1, hmk2, List.append_nil, List.nil_append,
      List.singleton_append, List.cons_append]
    simp +decide
  · rw [hnet, hprofit7]

/-! ### Route classifier (`identify_dex_from_route`, lines 230-252) -/

/-- The `swapInfo` sub-dictionary of a route step. -/
structure SwapInfo where
  ammKey : String
  programId : String
deriving DecidableEq

/-- A step of a Jupiter route plan; `swapInfo` may be absent. -/
structure RouteStep where
  swapInfo : Option SwapInfo
deriving DecidableEq

/-- Source constant `DEX_PROGRAM_IDS`, in insertion order. -/
def DEX_PROGRAM_IDS : List (String × List String) :=
  [("Raydium", ["675kPX9MHTjS2zt1qfr1NYHuzeLXfQM9H24wFSUt1Mp8"]),
   ("Orca", ["whirLbMiicVdio4qvUfM5KAg6Ct8VwpYzGff3uctyCc"]),
   ("Lifinity", ["EewxydAPCCVuNEyrVN68PuSYdQ7wKn27V9Gjeoi8dy3S"])]

/-- Python's `needle in haystack` on strings (substring containment). -/
def str_contains (haystack needle : String) : Bool :=
  decide (needle.data <:+: haystack.data)

/-- The per-step lookup inside the first loop of `identify_dex_from_route`:
skip the step when it has no `swapInfo`, otherwise return the first DEX of
the static table one of whose program ids occurs in the step's `programId`. -/
def step_dex_match (step : RouteStep) : Option String :=
  step.swapInfo.bind fun si =>
    (DEX_PROGRAM_IDS.find? fun entry =>
      entry.2.any fun pid => str_contains si.programId pid).map (·.1)

/-- Embedding of `identify_dex_from_route`: an empty route returns
"Unknown" at once; otherwise the first matching step wins, and with no
match the fallback is on the route length. -/
def identify_dex_from_route (route_plan : List RouteStep) : String :=
  if route_plan.isEmpty then "Unknown"
  else
    match route_plan.findSome? step_dex_match with
    | some dex => dex
    | none =>
      if route_plan.length = 1 then "Raydium"
      else if 1 < route_plan.length then "Orca"
      else "Lifinity"

/-- C4 counterexample: the claim says an empty route is classified as
"Lifinity" (Venue C), but the code returns "Unknown" on the empty route:
the trailing `return "Lifinity"` is unreachable. -/
theorem identify_dex_empty_route_not_lifinity :
    identify_dex_from_route [] = "Unknown"
    ∧ identify_dex_from_route [] ≠ "Lifinity" := by
  constructor
  · rfl
  · decide

/-- C4 (amended): for a route in which no step matches any entry of the
static venue table, the classifier returns "Raydium" for a one-step route
and "Orca" for a longer route, while the empty route yields "Unknown"
(not "Lifinity" as the spec has it). -/
theorem identify_dex_fallback (route_plan : List RouteStep)
    (hnm : ∀ step ∈ route_plan, step_dex_match step = none) :
    identify_dex_from_route route_plan =
      if route_plan.isEmpty then "Unknown"
      else if route_plan.length = 1 then "Raydium"
      else "Orca" := by
  unfold identify_dex_from_route
  by_cases he : route_plan.isEmpty
  · rw [if_pos he, if_pos he]
  · rw [if_neg he, if_neg he]
    have hfs : route_plan.findSome? step_dex_match = none :=
      List.findSome?_eq_none_iff.mpr hnm
    rw [hfs]
    by_cases h1 : route_plan.length = 1
    · rw [if_pos h1, if_pos h1]
    · rw [if_neg h1, if_neg h1]
      have hlen : 1 < route_plan.length := by
        have : route_plan ≠ [] := by
          intro hc
          rw [hc] at he
          exact he rfl
        have : 0 < route_plan.length := List.length_pos.mpr this
        omega
      rw [if_pos hlen]

/-- Witness for the amended C4 at a one-step route with no `swapInfo`. -/
theorem identify_dex_fallback_witness :
    (∀ step ∈ [RouteStep.mk none], step_dex_match step = none)
    ∧ identify_dex_from_route [RouteStep.mk none] =
        if ([RouteStep.mk none] : List RouteStep).isEmpty then "Unknown"
        else if ([RouteStep.mk none] : List RouteStep).length = 1 then "Raydium"
        else "Orca" :=
  ⟨by decide, identify_dex_fallback [RouteStep.mk none] (by decide)⟩

/-! ### Display backfill (`get_price_history`, lines 525-552) -/

/-- The synthetic random-walk loop of `get_price_history`: produce `k`
points starting at index `i`, each perturbing the previous value by the
hash-derived variation of `pair ++ str(index)`. -/
def synth_walk (h : String → ℤ) (pair : String) : ℕ → ℕ → ℚ → List ℚ
  | 0, _, _ => []
  | k + 1, i, base =>
    let variation : ℚ := (((h (pair ++ toString i)) % 200 - 100 : ℤ) : ℚ) / 10000
    let new_price := base * (1 + variation)
    new_price :: synth_walk h pair k (i + 1) new_price

/-- Embedding of the series computation of `get_price_history`: when the
stored series has fewer than 20 entries, prepend a synthetic walk anchored
at the LAST stored value (`history[-1]`, or 1.0 when empty); in both cases
return the last 20 entries of the resulting series (`history[-20:]`). -/
def get_price_history (h : String → ℤ) (pair : String) (stored : List ℚ) : List ℚ :=
  if stored.length < 20 then
    (synth_walk h pair (20 - stored.length) 0 (stored.getLastD 1) ++ stored).drop
      ((synth_walk h pair (20 - stored.length) 0 (stored.getLastD 1) ++ stored).length - 20)
  else stored.drop (stored.length - 20)

/-- Modelled from the spec: the backfill as the spec words it, anchored to
the OLDEST real value of the stored series (or 1.0 when empty), for
comparison with the code's behaviour. -/
def backfill_anchor_oldest (h : String → ℤ) (pair : String) (stored : List ℚ) : List ℚ :=
  if stored.length < 20 then
    (synth_walk h pair (20 - stored.length) 0 (stored.headD 1) ++ stored).drop
      ((synth_walk h pair (20 - stored.length) 0 (stored.headD 1) ++ stored).length - 20)
  else stored.drop (stored.length - 20)

/-- A concrete hash function making every walk variation zero
(`100 % 200 - 100 = 0`). -/
def constHash100 : String → ℤ := fun _ => 100

lemma synth_walk_length (h : String → ℤ) (pair : String) :
    ∀ (k i : ℕ) (base : ℚ), (synth_walk h pair k i base).length = k := by
  intro k
  induction k with
  | zero => intro i base; rfl
  | succ k ih =>
    intro i base
    simp only [synth_walk, List.length_cons, ih]

lemma backfill_pattern (h : String → ℤ) (pair : String) (stored : List ℚ)
    (a : ℚ) (hlen : stored.length < 20) :
    (synth_walk h pair (20 - stored.length) 0 a ++ stored).drop
        ((synth_walk h pair (20 - stored.length) 0 a ++ stored).length - 20)
      = synth_walk h pair (20 - stored.length) 0 a ++ stored
    ∧ (synth_walk h pair (20 - stored.length) 0 a ++ stored).head?
      = some (a * (1 + (((h (pair ++ toString 0)) % 200 - 100 : ℤ) : ℚ) / 10000)) := by
  have hl : (synth_walk h pair (20 - stored.length) 0 a ++ stored).length = 20 := by
    rw [List.length_append, synth_walk_length]
    omega
  constructor
  · rw [hl]
    simp
  · obtain ⟨k, hk⟩ : ∃ k, 20 - stored.length = k + 1 := ⟨19 - stored.length, by omega⟩
    rw [hk]
    simp [synth_walk]

/-- C5 counterexample: on the stored series `[5, 7]` and a hash with zero
variation the code's backfill starts from the newest value 7, not from the
oldest value 5 as the claim asserts; the two resulting series differ. -/
theorem get_price_history_anchor_counterexample :
    get_price_history constHash100 "SOL/USDC" [5, 7]
      ≠ backfill_anchor_oldest constHash100 "SOL/USDC" [5, 7] := by
  have hlen : ([5, 7] : List ℚ).length < 20 := by norm_num
  have hcode := backfill_pattern constHash100 "SOL/USDC" [5, 7]
    (([5, 7] : List ℚ).getLastD 1) hlen
  have hspec := backfill_pattern constHash100 "SOL/USDC" [5, 7]
    (([5, 7] : List ℚ).headD 1) hlen
  have hc : (get_price_history constHash100 "SOL/USDC" [5, 7]).head? = some 7 := by
    unfold get_price_history
    rw [if_pos hlen, hcode.1, hcode.2]
    norm_num [constHash100]
  have hs : (backfill_anchor_oldest constHash100 "SOL/USDC" [5, 7]).head? = some 5 := by
    unfold backfill_anchor_oldest
    rw [if_pos hlen, hspec.1, hspec.2]
    norm_num [constHash100]
  intro heq
  rw [heq, hs] at hc
  have : (5 : ℚ) = 7 := by
    injection hc
  norm_num at this

/-- C5 (amended): for every stored series with fewer than 20 entries,
`get_price_history` returns exactly 20 entries, namely the synthetic
random-walk points prepended before the real entries, with the walk
anchored at the NEWEST stored value (the last element; 1.0 when the series
is empty — so on an empty series all 20 entries derive from the anchor
1.0); the first returned entry is the anchor perturbed by the index-0
variation. -/
theorem get_price_history_backfill (h : String → ℤ) (pair : String)
    (stored : List ℚ) (hlen : stored.length < 20) :
    (get_price_history h pair stored).length = 20
    ∧ get_price_history h pair stored
        = synth_walk h pair (20 - stored.length) 0 (stored.getLastD 1) ++ stored
    ∧ (get_price_history h pair stored).head?
        = some ((stored.getLastD 1)
            * (1 + (((h (pair ++ toString 0)) % 200 - 100 : ℤ) : ℚ) / 10000)) := by
  have hpat := backfill_pattern h pair stored (stored.getLastD 1) hlen
  have hhist : get_price_history h pair stored
      = synth_walk h pair (20 - stored.length) 0 (stored.getLastD 1) ++ stored := by
    unfold get_price_history
    rw [if_pos hlen, hpat.1]
  refine ⟨?_, hhist, ?_⟩
  · rw [hhist, List.length_append, synth_walk_length]
    omega
  · rw [hhist, hpat.2]

/-- Witness for the amended C5 on a concrete short stored series. -/
theorem get_price_history_backfill_witness :
    ([5, 7] : List ℚ).length < 20
    ∧ ((get_price_history constHash100 "P" [5, 7]).length = 20
      ∧ get_price_history constHash100 "P" [5, 7]
          = synth_walk constHash100 "P" (20 - ([5, 7] : List ℚ).length) 0
              (([5, 7] : List ℚ).getLastD 1) ++ [5, 7]
      ∧ (get_price_history constHash100 "P" [5, 7]).head?
          = some ((([5, 7] : List ℚ).getLastD 1)
              * (1 + (((constHash100 ("P" ++ toString 0)) % 200 - 100 : ℤ) : ℚ) / 10000))) :=
  ⟨by decide, get_price_history_backfill constHash100 "P" [5, 7] (by decide)⟩

/-! ### History-update lemmas (for C6) -/

lemma mk_opportunity_pair {h : String → ℤ} {nowMs : ℤ} {pair : String}
    {b s : Quote} {o : Opportunity}
    (hmk : mk_opportunity h nowMs pair b s = some o) : o.pair = pair := by
  simp only [mk_opportunity] at hmk
  split at hmk
  · split at hmk
    · rw [Option.some.injEq] at hmk
      rw [← hmk]
    · exact absurd hmk (by simp)
  · exact absurd hmk (by simp)

lemma update_price_history_append (p : String) :
    ∀ (opps : List Opportunity) (ph : String → List ℚ),
      (ph p).length + ((opps.filter fun o => decide (o.pair = p)).length) ≤ 50 →
      update_price_history opps ph p
        = ph p ++ (opps.filter fun o => decide (o.pair = p)).map (·.spread) := by
  intro opps
  induction opps with
  | nil => intro ph _; simp [update_price_history]
  | cons o os ih =>
    intro ph hle
    have hstep : update_price_history (o :: os) ph = update_price_history os (uph_step ph o) := rfl
    rw [hstep]
    by_cases hp : o.pair = p
    · rw [List.filter_cons_of_pos (by simpa using hp)] at hle ⊢
      simp only [List.length_cons] at hle
      have hno : ¬ 50 < (ph p ++ [o.spread]).length := by
        simp only [List.length_append, List.length_cons, List.length_nil]
        omega
      have hacc : uph_step ph o p = ph p ++ [o.spread] := by
        unfold uph_step
        rw [hp, if_pos rfl, if_neg hno]
      have hle' : ((uph_step ph o) p).length
          + ((os.filter fun o' => decide (o'.pair = p)).length) ≤ 50 := by
        rw [hacc]
        simp only [List.length_append, List.length_cons, List.length_nil]
        omega
      rw [ih _ hle', hacc]
      simp [List.append_assoc]
    · have hne : ¬ p = o.pair := fun hc => hp hc.symm
      have hacc : uph_step ph o p = ph p := by
        unfold uph_step
        rw [if_neg hne]
      rw [List.filter_cons_of_neg (by simpa using hp)] at hle ⊢
      rw [ih _ (by rw [hacc]; exact hle), hacc]

lemma update_price_history_le50 (p : String) :
    ∀ (opps : List Opportunity) (ph : String → List ℚ),
      (ph p).length ≤ 50 → (update_price_history opps ph p).length ≤ 50 := by
  intro opps
  induction opps with
  | nil => intro ph hle; simpa [update_price_history] using hle
  | cons o os ih =>
    intro ph hle
    have hstep : update_price_history (o :: os) ph = update_price_history os (uph_step ph o) := rfl
    rw [hstep]
    refine ih _ ?_
    by_cases hp : p = o.pair
    · unfold uph_step
      rw [if_pos hp]
      by_cases htrim : 50 < (ph o.pair ++ [o.spread]).length
      · rw [if_pos htrim]
        simp only [List.length_drop]
        omega
      · rw [if_neg htrim]
        omega
    · unfold uph_step
      rw [if_neg hp]
      exact hle

lemma update_price_history_suffix (p : String) :
    ∀ (opps : List Opportunity) (ph : String → List ℚ),
      update_price_history opps ph p <:+
        ph p ++ (opps.filter fun o => decide (o.pair = p)).map (·.spread) := by
  intro opps
  induction opps with
  | nil => intro ph; simp [update_price_history]
  | cons o os ih =>
    intro ph
    have hstep : update_price_history (o :: os) ph = update_price_history os (uph_step ph o) := rfl
    rw [hstep]
    by_cases hp : o.pair = p
    · rw [List.filter_cons_of_pos (by simpa using hp)]
      have hsuf1 : uph_step ph o p <:+ ph p ++ [o.spread] := by
        unfold uph_step
        rw [hp, if_pos rfl]
        by_cases htrim : 50 < (ph p ++ [o.spread]).length
        · rw [if_pos htrim]
          exact List.drop_suffix _ _
        · rw [if_neg htrim]
      obtain ⟨t, ht⟩ := hsuf1
      refine (ih (uph_step ph o)).trans ?_
      refine ⟨t, ?_⟩
      rw [List.map_cons]
      calc t ++ ((uph_step ph o) p
            ++ (os.filter fun o' => decide (o'.pair = p)).map (·.spread))
          = (t ++ (uph_step ph o) p)
            ++ (os.filter fun o' => decide (o'.pair = p)).map (·.spread) := by
            rw [List.append_assoc]
        _ = (ph p ++ [o.spread])
            ++ (os.filter fun o' => decide (o'.pair = p)).map (·.spread) := by rw [ht]
        _ = ph p ++ (o.spread
            :: (os.filter fun o' => decide (o'.pair = p)).map (·.spread)) := by
            rw [List.append_assoc]
            rfl
    · rw [List.filter_cons_of_neg (by simpa using hp)]
      have hne : ¬ p = o.pair := fun hc => hp hc.symm
      have hacc : uph_step ph o p = ph p := by
        unfold uph_step
        rw [if_neg hne]
      rw [← hacc]
      exact ih (uph_step ph o)

lemma mk_opportunity_isSome {h : String → ℤ} {nowMs : ℤ} {pair : String}
    {b s : Quote}
    (h1 : 1/10 < (s.price - b.price) / b.price * 100)
    (h2 : 0 < (s.price - b.price) / b.price * 100 - b.slippage * 100
      - s.slippage * 100 - estimated_gas_of h b.dex s.dex) :
    ∃ o, mk_opportunity h nowMs pair b s = some o := by
  simp only [mk_opportunity]
  rw [if_pos h1, if_pos h2]
  exact ⟨_, rfl⟩

lemma mk_opportunity_isNone {h : String → ℤ} {nowMs : ℤ} {pair : String}
    {b s : Quote}
    (h1 : ¬ (1/10 < (s.price - b.price) / b.price * 100)) :
    mk_opportunity h nowMs pair b s = none := by
  simp only [mk_opportunity]
  rw [if_neg h1]

/-- A hash function that is constantly zero. -/
def zeroHash : String → ℤ := fun _ => 0

def quoteA : Quote := ⟨"A", 100, 0, 0, "jupiter"⟩
def quoteB : Quote := ⟨"B", 102, 0, 0, "jupiter"⟩
def quoteC : Quote := ⟨"C", 104, 0, 0, "jupiter"⟩

/-- A quote cache holding one fresh three-venue quote set for SOL/USDC. -/
def cacheOnePair : String → Option CachedQuotes :=
  fun p => if p = "SOL/USDC" then some ⟨[quoteA, quoteB, quoteC], 0⟩ else none

/-- C6 counterexample: a polling cycle whose quote set for SOL/USDC yields
three surviving opportunities appends THREE spread values to that pair's
history series in one cycle, not exactly one as the claim asserts. -/
theorem history_multi_append_counterexample :
    (((generate_arbitrage_opportunities zeroHash 0 0 cacheOnePair
        fun _ => []).2) "SOL/USDC").length = 3
    ∧ (((generate_arbitrage_opportunities zeroHash 0 0 cacheOnePair
        fun _ => []).2) "SOL/USDC").length ≠ 1 := by
  have hgas : ∀ d₁ d₂ : String, estimated_gas_of zeroHash d₁ d₂ = 1/100 := by
    intro d₁ d₂
    unfold estimated_gas_of zeroHash
    norm_num
  obtain ⟨oAB, hAB⟩ := @mk_opportunity_isSome zeroHash 0 "SOL/USDC" quoteA quoteB
    (by norm_num [quoteA, quoteB]) (by norm_num [quoteA, quoteB, hgas])
  obtain ⟨oAC, hAC⟩ := @mk_opportunity_isSome zeroHash 0 "SOL/USDC" quoteA quoteC
    (by norm_num [quoteA, quoteC]) (by norm_num [quoteA, quoteC, hgas])
  obtain ⟨oBC, hBC⟩ := @mk_opportunity_isSome zeroHash 0 "SOL/USDC" quoteB quoteC
    (by norm_num [quoteB, quoteC]) (by norm_num [quoteB, quoteC, hgas])
  have hBA := @mk_opportunity_isNone zeroHash 0 "SOL/USDC" quoteB quoteA
    (by norm_num [quoteA, quoteB])
  have hCA := @mk_opportunity_isNone zeroHash 0 "SOL/USDC" quoteC quoteA
    (by norm_num [quoteA, quoteC])
  have hCB := @mk_opportunity_isNone zeroHash 0 "SOL/USDC" quoteC quoteB
    (by norm_num [quoteB, quoteC])
  have hdet : detect_pair_opportunities zeroHash 0 "SOL/USDC"
      [quoteA, quoteB, quoteC] = [oAB, oAC, oBC] := by
    simp only [detect_pair_opportunities, List.enum, List.enumFrom,
      List.flatMap_cons, List.flatMap_nil, List.filterMap_cons, List.filterMap_nil,
      ne_eq, reduceIte, hAB, hAC, hBC, hBA, hCA, hCB, List.append_nil,
      List.nil_append, List.singleton_append, List.cons_append]
    simp +decide
  have hfresh : ¬ ((5:ℚ) < 0 - 0) := by norm_num
  have hops : (TRADING_PAIRS.flatMap fun pair =>
      match cacheOnePair pair with
      | none => []
      | some cached =>
        if 5 < (0:ℚ) - cached.timestamp then []
        else detect_pair_opportunities zeroHash 0 pair cached.data)
      = [oAB, oAC, oBC] := by
    simp only [TRADING_PAIRS, List.flatMap_cons, List.flatMap_nil,
      cacheOnePair, reduceIte]
    rw [if_neg hfresh, hdet]
    simp
  have hgen1 : (generate_arbitrage_opportunities zeroHash 0 0 cacheOnePair
      fun _ => []).1
      = (([oAB, oAC, oBC]).mergeSort
          fun a b => decide (b.netProfit ≤ a.netProfit)).take 10 := by
    show ((TRADING_PAIRS.flatMap fun pair =>
        match cacheOnePair pair with
        | none => []
        | some cached =>
          if 5 < (0:ℚ) - cached.timestamp then []
          else detect_pair_opportunities zeroHash 0 pair cached.data).mergeSort
        fun a b => decide (b.netProfit ≤ a.netProfit)).take 10 = _
    rw [hops]
  have hgen2 : (generate_arbitrage_opportunities zeroHash 0 0 cacheOnePair
      fun _ => []).2
      = update_price_history
          ((generate_arbitrage_opportunities zeroHash 0 0 cacheOnePair
            fun _ => []).1) (fun _ => []) := rfl
  have hslen : ((([oAB, oAC, oBC]).mergeSort
      fun a b => decide (b.netProfit ≤ a.netProfit)).take 10).length = 3 := by
    rw [List.length_take, List.length_mergeSort]
    norm_num
  have hpairs : ∀ o ∈ (([oAB, oAC, oBC]).mergeSort
      fun a b => decide (b.netProfit ≤ a.netProfit)).take 10,
      o.pair = "SOL/USDC" := by
    intro o ho
    have h1 := List.mem_of_mem_take ho
    rw [List.mem_mergeSort] at h1
    simp only [List.mem_cons, List.not_mem_nil, or_false] at h1
    rcases h1 with rfl | rfl | rfl
    · exact mk_opportunity_pair hAB
    · exact mk_opportunity_pair hAC
    · exact mk_opportunity_pair hBC
  have hfil : ((([oAB, oAC, oBC]).mergeSort
      fun a b => decide (b.netProfit ≤ a.netProfit)).take 10).filter
        (fun o => decide (o.pair = "SOL/USDC"))
      = (([oAB, oAC, oBC]).mergeSort
          fun a b => decide (b.netProfit ≤ a.netProfit)).take 10 :=
    List.filter_eq_self.mpr fun a ha => decide_eq_true (hpairs a ha)
  have hupd := update_price_history_append "SOL/USDC"
    ((([oAB, oAC, oBC]).mergeSort
      fun a b => decide (b.netProfit ≤ a.netProfit)).take 10) (fun _ => [])
    (by rw [hfil, hslen]; simp)
  have hfin : (((generate_arbitrage_opportunities zeroHash 0 0 cacheOnePair
      fun _ => []).2) "SOL/USDC").length = 3 := by
    rw [hgen2, hgen1, hupd, List.length_append, List.length_map, hfil, hslen]
    rfl
  exact ⟨hfin, by rw [hfin]; norm_num⟩

/-- C6 (amended): in each polling cycle a pair's history series receives one
appended spread value PER surviving opportunity of that pair (so k appends
when the pair has k opportunities in the retained top-10 list, not exactly
one); the series is trimmed to at most 50 entries by dropping the oldest
entries first: when no trimming is needed the new series is exactly the old
one followed by the appended spreads, a series at most 50 long stays at most
50 long, and in general the new series is a suffix of the old series plus
the appended spreads. -/
theorem update_price_history_per_opportunity (opps : List Opportunity)
    (ph : String → List ℚ) (p : String) :
    ((ph p).length ≤ 50 → (update_price_history opps ph p).length ≤ 50)
    ∧ ((ph p).length + ((opps.filter fun o => decide (o.pair = p)).length) ≤ 50 →
        update_price_history opps ph p
          = ph p ++ (opps.filter fun o => decide (o.pair = p)).map (·.spread))
    ∧ update_price_history opps ph p <:+
        ph p ++ (opps.filter fun o => decide (o.pair = p)).map (·.spread) :=
  ⟨fun hle => update_price_history_le50 p opps ph hle,
   fun hle => update_price_history_append p opps ph hle,
   update_price_history_suffix p opps ph⟩

/-- A concrete opportunity record used to instantiate history-update facts. -/
def sampleOpportunity : Opportunity :=
  ⟨"id0", "SOL/USDC", "A", "B", 100, 101, 1, 7/10, 1/100, 69/100, 50, 0,
    ["Buy on A", "Sell on B"], "jupiter", 0, 0⟩

/-- Witness for the amended C6 on a one-opportunity cycle and empty history. -/
theorem update_price_history_per_opportunity_witness :
    (((fun _ => []) : String → List ℚ) "SOL/USDC").length ≤ 50
    ∧ (((fun _ => []) : String → List ℚ) "SOL/USDC").length
        + (([sampleOpportunity].filter
            fun o => decide (o.pair = "SOL/USDC")).length) ≤ 50
    ∧ (update_price_history [sampleOpportunity] (fun _ => []) "SOL/USDC").length ≤ 50
    ∧ update_price_history [sampleOpportunity] (fun _ => []) "SOL/USDC"
        = ((fun _ => []) : String → List ℚ) "SOL/USDC"
          ++ ([sampleOpportunity].filter
              fun o => decide (o.pair = "SOL/USDC")).map (·.spread)
    ∧ update_price_history [sampleOpportunity] (fun _ => []) "SOL/USDC" <:+
        ((fun _ => []) : String → List ℚ) "SOL/USDC"
          ++ ([sampleOpportunity].filter
              fun o => decide (o.pair = "SOL/USDC")).map (·.spread) :=
  ⟨by decide, by decide,
   (update_price_history_per_opportunity [sampleOpportunity]
     (fun _ => []) "SOL/USDC").1 (by decide),
   (update_price_history_per_opportunity [sampleOpportunity]
     (fun _ => []) "SOL/USDC").2.1 (by decide),
   (update_price_history_per_opportunity [sampleOpportunity]
     (fun _ => []) "SOL/USDC").2.2⟩

/-! ### SourceClient retry model (`get_jupiter_quote_with_retry`, lines
100-139, and `get_coingecko_prices_with_retry`, lines 145-183; the two
functions have the same control flow, modelled once) -/

/-- Outcome of one upstream request attempt, as the environment provides
it: HTTP 200 with a payload, HTTP 429, any other non-success status, or a
raised exception (timeout, transport or parse error). -/
inductive FetchOutcome
  | ok (payload : ℕ)
  | tooManyRequests
  | otherStatus
  | exc
deriving DecidableEq

/-- Observable trace of one `fetch` call: the returned value, the number of
upstream request attempts actually issued, and the total backoff wait. -/
structure FetchTrace where
  result : Option ℕ
  requests : ℕ
  totalWait : ℚ
deriving DecidableEq

/-- The retry loop body: `rl` is the rate limiter's verdict per iteration,
`out` the upstream outcome per attempt, `jitter` the sampled
`random.uniform(0,1)` per backoff sleep.  `fuel` is the number of loop
iterations remaining (`range(max_retries + 1)`). -/
def fetch_retry_go (rl : ℕ → Bool) (out : ℕ → FetchOutcome) (jitter : ℕ → ℚ)
    (max_retries : ℕ) : ℕ → ℕ → FetchTrace
  | _, 0 => ⟨none, 0, 0⟩
  | attempt, fuel + 1 =>
    if rl attempt = false then ⟨none, 0, 0⟩
    else
      match out attempt with
      | .ok d => ⟨some d, 1, 0⟩
      | .tooManyRequests =>
        if attempt < max_retries then
          ⟨(fetch_retry_go rl out jitter max_retries (attempt + 1) fuel).result,
           (fetch_retry_go rl out jitter max_retries (attempt + 1) fuel).requests + 1,
           ((2:ℚ) ^ attempt + jitter attempt)
             + (fetch_retry_go rl out jitter max_retries (attempt + 1) fuel).totalWait⟩
        else ⟨none, 1, 0⟩
      | .otherStatus => ⟨none, 1, 0⟩
      | .exc =>
        if attempt < max_retries then
          ⟨(fetch_retry_go rl out jitter max_retries (attempt + 1) fuel).result,
           (fetch_retry_go rl out jitter max_retries (attempt + 1) fuel).requests + 1,
           ((2:ℚ) ^ attempt + jitter attempt)
             + (fetch_retry_go rl out jitter max_retries (attempt + 1) fuel).totalWait⟩
        else ⟨none, 1, 0⟩

/-- A full `fetch` call: attempt 0, `max_retries + 1` loop iterations. -/
def fetch_with_retry (rl : ℕ → Bool) (out : ℕ → FetchOutcome) (jitter : ℕ → ℚ)
    (max_retries : ℕ) : FetchTrace :=
  fetch_retry_go rl out jitter max_retries 0 (max_retries + 1)

lemma fetch_retry_go_bounds (rl : ℕ → Bool) (out : ℕ → FetchOutcome)
    (jitter : ℕ → ℚ) (max_retries : ℕ)
    (hjit : ∀ i, 0 ≤ jitter i ∧ jitter i ≤ 1) :
    ∀ (fuel attempt : ℕ),
      (fetch_retry_go rl out jitter max_retries attempt fuel).requests ≤ fuel
      ∧ (fetch_retry_go rl out jitter max_retries attempt fuel).totalWait
          ≤ (∑ i ∈ Finset.Ico attempt max_retries, (2:ℚ) ^ i)
            + ((max_retries - attempt : ℕ) : ℚ) := by
  have hsum_nonneg : ∀ a : ℕ,
      (0:ℚ) ≤ (∑ i ∈ Finset.Ico a max_retries, (2:ℚ) ^ i)
        + ((max_retries - a : ℕ) : ℚ) := by
    intro a
    have h1 : (0:ℚ) ≤ ∑ i ∈ Finset.Ico a max_retries, (2:ℚ) ^ i :=
      Finset.sum_nonneg fun i _ => by positivity
    have h2 : (0:ℚ) ≤ ((max_retries - a : ℕ) : ℚ) := Nat.cast_nonneg _
    linarith
  intro fuel
  induction fuel with
  | zero =>
    intro attempt
    exact ⟨Nat.le_refl _, hsum_nonneg attempt⟩
  | succ fuel ih =>
    intro attempt
    have hstep : ∀ (r : FetchTrace),
        (fetch_retry_go rl out jitter max_retries (attempt + 1) fuel) = r →
        attempt < max_retries →
        r.requests + 1 ≤ fuel + 1
        ∧ ((2:ℚ) ^ attempt + jitter attempt) + r.totalWait
            ≤ (∑ i ∈ Finset.Ico attempt max_retries, (2:ℚ) ^ i)
              + ((max_retries - attempt : ℕ) : ℚ) := by
      intro r hr hlt
      obtain ⟨ihr, ihw⟩ := ih (attempt + 1)
      rw [hr] at ihr ihw
      refine ⟨by omega, ?_⟩
      have hsum : (∑ i ∈ Finset.Ico attempt max_retries, (2:ℚ) ^ i)
          = (2:ℚ) ^ attempt + ∑ i ∈ Finset.Ico (attempt + 1) max_retries, (2:ℚ) ^ i :=
        Finset.sum_eq_sum_Ico_succ_bot hlt _
      have hcast : ((max_retries - attempt : ℕ) : ℚ)
          = ((max_retries - (attempt + 1) : ℕ) : ℚ) + 1 := by
        have hn : max_retries - attempt = (max_retries - (attempt + 1)) + 1 := by omega
        rw [hn]
        push_cast
        ring
      obtain ⟨hj0, hj1⟩ := hjit attempt
      rw [hsum, hcast]
      linarith
    simp only [fetch_retry_go]
    by_cases hrl : rl attempt = false
    · rw [if_pos hrl]
      exact ⟨Nat.zero_le _, hsum_nonneg attempt⟩
    · rw [if_neg hrl]
      cases hout : out attempt with
      | ok d =>
        dsimp only
        exact ⟨by omega, hsum_nonneg attempt⟩
      | tooManyRequests =>
        dsimp only
        by_cases hlt : attempt < max_retries
        · rw [if_pos hlt]
          exact hstep _ rfl hlt
        · rw [if_neg hlt]
          refine ⟨?_, hsum_nonneg attempt⟩
          show 1 ≤ fuel + 1
          omega
      | otherStatus =>
        dsimp only
        exact ⟨by omega, hsum_nonneg attempt⟩
      | exc =>
        dsimp only
        by_cases hlt : attempt < max_retries
        · rw [if_pos hlt]
          exact hstep _ rfl hlt
        · rw [if_neg hlt]
          refine ⟨?_, hsum_nonneg attempt⟩
          show 1 ≤ fuel + 1
          omega

/-- C7: for every environment, a fetch call issues at most
`max_retries + 1` upstream request attempts, and its total backoff wait is
bounded by the sum of `2 ^ i` for `i` below `max_retries` plus one time
unit of jitter per sleep (`max_retries` sleeps at most). -/
theorem fetch_retry_attempt_and_wait_bounds (rl : ℕ → Bool)
    (out : ℕ → FetchOutcome) (jitter : ℕ → ℚ) (max_retries : ℕ)
    (hjit : ∀ i, 0 ≤ jitter i ∧ jitter i ≤ 1) :
    (fetch_with_retry rl out jitter max_retries).requests ≤ max_retries + 1
    ∧ (fetch_with_retry rl out jitter max_retries).totalWait
        ≤ (∑ i ∈ Finset.range max_retries, (2:ℚ) ^ i) + (max_retries : ℚ) := by
  obtain ⟨hr, hw⟩ := fetch_retry_go_bounds rl out jitter max_retries hjit
    (max_retries + 1) 0
  refine ⟨hr, ?_⟩
  rw [Finset.range_eq_Ico]
  simpa using hw

/-- Witness for C7 with default retries and an always-throttling upstream. -/
theorem fetch_retry_attempt_and_wait_bounds_witness :
    (∀ i : ℕ, 0 ≤ ((fun _ => 0) : ℕ → ℚ) i ∧ ((fun _ => 0) : ℕ → ℚ) i ≤ 1)
    ∧ ((fetch_with_retry (fun _ => true) (fun _ => .tooManyRequests)
          (fun _ => 0) 2).requests ≤ 2 + 1
      ∧ (fetch_with_retry (fun _ => true) (fun _ => .tooManyRequests)
          (fun _ => 0) 2).totalWait
          ≤ (∑ i ∈ Finset.range 2, (2:ℚ) ^ i) + ((2:ℕ) : ℚ)) :=
  ⟨fun i => by norm_num,
   fetch_retry_attempt_and_wait_bounds (fun _ => true)
     (fun _ => .tooManyRequests) (fun _ => 0) 2 (fun i => by norm_num)⟩

/-- C8: whenever the rate limiter denies admission at the current loop
iteration, the fetch call ends at once with no data, performing no upstream
request, no backoff sleep, and no further retry attempt; in particular a
denial at attempt 0 makes the whole call return no data with zero requests
and zero wait. -/
theorem fetch_rate_limited_hard_stop (rl : ℕ → Bool) (out : ℕ → FetchOutcome)
    (jitter : ℕ → ℚ) (max_retries attempt fuel : ℕ)
    (hdeny : rl attempt = false) :
    fetch_retry_go rl out jitter max_retries attempt (fuel + 1) = ⟨none, 0, 0⟩
    ∧ (rl 0 = false →
        fetch_with_retry rl out jitter max_retries = ⟨none, 0, 0⟩) := by
  constructor
  · simp only [fetch_retry_go]
    rw [if_pos hdeny]
  · intro h0
    unfold fetch_with_retry
    simp only [fetch_retry_go]
    rw [if_pos h0]

/-- Witness for C8 with a rate limiter that always denies. -/
theorem fetch_rate_limited_hard_stop_witness :
    ((fun _ => false) : ℕ → Bool) 0 = false
    ∧ (fetch_retry_go (fun _ => false) (fun _ => .ok 0) (fun _ => 0) 2 0 (0 + 1)
        = ⟨none, 0, 0⟩
      ∧ (((fun _ => false) : ℕ → Bool) 0 = false →
          fetch_with_retry (fun _ => false) (fun _ => .ok 0) (fun _ => 0) 2
            = ⟨none, 0, 0⟩)) :=
  ⟨rfl, fetch_rate_limited_hard_stop (fun _ => false) (fun _ => .ok 0)
    (fun _ => 0) 2 0 0 rfl⟩

/-! ### Trade simulation (`simulate_trade`, lines 485-513) and the
opportunity query (`get_arbitrage_opportunities`, lines 467-483) -/

/-- The response body of a successful trade simulation. -/
structure SimResult where
  executionTime : ℤ
  originalEstimate : ℚ
  actualProfit : ℚ
  slippageImpact : ℚ
  gasUsed : ℚ
  route : List String
deriving DecidableEq

/-- The published server state read by the query handlers. -/
structure ServerState where
  current_opportunities : List Opportunity
  price_history : String → List ℚ

/-- Embedding of `simulate_trade`: look up the opportunity by id in the
published list; on a miss return the 404 response (no result) with zero
delay and the state unchanged; on a hit derive the simulated latency and
slippage impact from the hash of the id (and amount), sleep
`execution_latency / 1000`, and return the simulated result.  The third
component is the synchronous delay performed. -/
def simulate_trade (h : String → ℤ) (st : ServerState)
    (opportunity_id : String) (amount : ℤ) :
    ServerState × Option SimResult × ℚ :=
  match st.current_opportunities.find? fun opp => opp.id = opportunity_id with
  | none => (st, none, 0)
  | some opp =>
    (st,
     some
       { executionTime := 100 + (h opportunity_id % 500),
         originalEstimate := opp.netProfit,
         actualProfit := opp.netProfit * ((amount : ℚ) / 1000)
           * (1 - (1/10 + (((h (opportunity_id ++ toString amount)) % 50 : ℤ) : ℚ) / 100) / 100),
         slippageImpact := 1/10
           + (((h (opportunity_id ++ toString amount)) % 50 : ℤ) : ℚ) / 100,
         gasUsed := opp.estimatedGas,
         route := opp.route },
     ((100 + (h opportunity_id % 500) : ℤ) : ℚ) / 1000)

/-- C9: for every opportunity id not present in the published opportunity
list, `simulate_trade` returns the not-found failure (no result), performs
no simulated execution delay, and leaves the published state unchanged. -/
theorem simulate_trade_not_found (h : String → ℤ) (st : ServerState)
    (opportunity_id : String) (amount : ℤ)
    (habsent : ∀ opp ∈ st.current_opportunities, opp.id ≠ opportunity_id) :
    simulate_trade h st opportunity_id amount = (st, none, 0) := by
  unfold simulate_trade
  have hfind : (st.current_opportunities.find?
      fun opp => opp.id = opportunity_id) = none := by
    rw [List.find?_eq_none]
    intro x hx
    simpa using habsent x hx
  rw [hfind]

/-- Witness for C9 on an empty published list. -/
theorem simulate_trade_not_found_witness :
    (∀ opp ∈ (ServerState.mk [] fun _ => []).current_opportunities,
      opp.id ≠ "missing-id")
    ∧ simulate_trade zeroHash (ServerState.mk [] fun _ => []) "missing-id" 1000
        = (ServerState.mk [] fun _ => [], none, 0) :=
  ⟨by simp, simulate_trade_not_found zeroHash (ServerState.mk [] fun _ => [])
    "missing-id" 1000 (by simp)⟩

/-- Embedding of `get_arbitrage_opportunities`: filter the published list by
minimum net profit and the optional pair filter (absent or falsy (empty) or
"All" meaning no pair restriction); `max_latency` is parsed from the request
but ignored.  Returns the filtered list and its length (`totalCount`). -/
def get_arbitrage_opportunities (current : List Opportunity) (min_pnl : ℚ)
    (max_latency : ℤ) (pair_filter : Option String) :
    List Opportunity × ℕ :=
  let filtered := current.filter fun opp =>
    decide (min_pnl ≤ opp.netProfit)
      && (match pair_filter with
          | none => true
          | some pf => pf = "" || pf = "All" || opp.pair = pf)
  (filtered, filtered.length)

/-- C10: two `get_arbitrage_opportunities` requests over the same published
snapshot that agree on `minPnl` and the pair filter but differ arbitrarily
in `maxLatency` return the identical opportunity list and total count: the
`maxLatency` parameter has no effect on the result. -/
theorem get_opportunities_ignore_max_latency (current : List Opportunity)
    (min_pnl : ℚ) (pair_filter : Option String) (ml₁ ml₂ : ℤ) :
    get_arbitrage_opportunities current min_pnl ml₁ pair_filter
      = get_arbitrage_opportunities current min_pnl ml₂ pair_filter := rfl

end SolanaArbitrage
